import Mathlib

/-!
Verification of the httpSandwich terminal rendering core.

This file gives a shallow embedding, in Lean, of the parts of the
httpSandwich TypeScript sources that the checked properties are about:

* the domain value objects (`DetailLevel`, `categorizeStatus`, the ANSI
  color scheme) from `src/domain` and `src/infrastructure`;
* the bounded FIFO `ExchangeHistory` buffer;
* the `TuiLayout` geometry, footer assembly and style-aware truncation;
* the `ScreenRenderer` selection state machine.

JavaScript strings are embedded as `List Char` (every character involved
is a single UTF-16 code unit, so `String.prototype.length` coincides with
`List.length`); JavaScript numbers that hold integers are embedded as
`Int` or `Nat`, and the one genuinely fractional input (`DetailLevel.of`)
takes a rational.  Each definition mirrors one function of the source.
-/

/-! ## Domain data model (src/domain/entities/http-exchange.ts) -/

/-- An HTTP request as captured by the proxy: method, path, headers, optional body. -/
structure HttpRequest where
  method : String
  path : String
  headers : List (String × String)
  body : Option String
deriving DecidableEq, Repr

/-- An HTTP response: status code, headers, optional body. -/
structure HttpResponse where
  statusCode : Int
  headers : List (String × String)
  body : Option String
deriving DecidableEq, Repr

/-- One captured exchange.  `response = none` means the target was unreachable.
The timestamp is embedded as epoch milliseconds. -/
structure HttpExchange where
  id : String
  timestamp : Int
  request : HttpRequest
  response : Option HttpResponse
  durationMs : Option Int
deriving DecidableEq, Repr

/-! ## Status categories (src/domain/value-objects/http-status-category.ts) -/

/-- Categories for HTTP status codes, used for color-coding output. -/
inductive HttpStatusCategory where
  | unreachable
  | informational
  | success
  | redirect
  | clientError
  | serverError
deriving DecidableEq, Repr

/-- `categorizeStatus(statusCode)`: bucket a status code (or `null`) into a category.
Mirror of `categorizeStatus` in `src/domain`. -/
def categorizeStatus (statusCode : Option Int) : HttpStatusCategory :=
  match statusCode with
  | none => .unreachable
  | some c =>
    if 100 ≤ c ∧ c < 200 then .informational
    else if 200 ≤ c ∧ c < 300 then .success
    else if 300 ≤ c ∧ c < 400 then .redirect
    else if 400 ≤ c ∧ c < 500 then .clientError
    else if 500 ≤ c ∧ c < 600 then .serverError
    else .serverError

/-! ## ANSI color scheme (src/infrastructure/color-scheme.ts) -/

/-- The ESC character (code 27) that starts every ANSI escape sequence. -/
def escChar : Char := Char.ofNat 27

/-- `AnsiColors.reset`: the sequence `ESC [ 0 m`. -/
def ansiReset : List Char := [escChar, '[', '0', 'm']

/-- `AnsiColors.unreachable`: magenta, `ESC [ 3 5 m`. -/
def ansiUnreachable : List Char := [escChar, '[', '3', '5', 'm']

/-- `AnsiColors.informational`: grey, `ESC [ 9 0 m`. -/
def ansiInformational : List Char := [escChar, '[', '9', '0', 'm']

/-- `AnsiColors.success`: green, `ESC [ 3 2 m`. -/
def ansiSuccess : List Char := [escChar, '[', '3', '2', 'm']

/-- `AnsiColors.redirect`: blue, `ESC [ 3 4 m`. -/
def ansiRedirect : List Char := [escChar, '[', '3', '4', 'm']

/-- `AnsiColors.clientError`: yellow, `ESC [ 3 3 m`. -/
def ansiClientError : List Char := [escChar, '[', '3', '3', 'm']

/-- `AnsiColors.serverError`: red, `ESC [ 3 1 m`. -/
def ansiServerError : List Char := [escChar, '[', '3', '1', 'm']

/-- `AnsiColors.dim`: `ESC [ 2 m`. -/
def ansiDim : List Char := [escChar, '[', '2', 'm']

/-- `AnsiColors.bold`: `ESC [ 1 m`. -/
def ansiBold : List Char := [escChar, '[', '1', 'm']

/-- `getColorForCategory(category)`: the ANSI color code for a status category. -/
def getColorForCategory (category : HttpStatusCategory) : List Char :=
  match category with
  | .unreachable => ansiUnreachable
  | .informational => ansiInformational
  | .success => ansiSuccess
  | .redirect => ansiRedirect
  | .clientError => ansiClientError
  | .serverError => ansiServerError

/-- `colorize(text, category)`: wrap text with the category color and a reset. -/
def colorize (text : List Char) (category : HttpStatusCategory) : List Char :=
  getColorForCategory category ++ text ++ ansiReset

/-- The category computed once per exchange by `formatExchange`:
`categorizeStatus(exchange.response?.statusCode ?? null)`. -/
def formatCategory (e : HttpExchange) : HttpStatusCategory :=
  categorizeStatus (e.response.map HttpResponse.statusCode)

/-! ## DetailLevel (src/domain/value-objects/detail-level.ts) -/

/-- The detail level value object.  The source constructor is private and every
construction stores an integer, so the embedded `value` is an `Int`. -/
structure DetailLevel where
  value : Int
deriving DecidableEq, Repr

/-- `DetailLevel.MIN`. -/
def DetailLevel.MIN : Int := 1

/-- `DetailLevel.MAX`. -/
def DetailLevel.MAX : Int := 6

/-- `DetailLevel.of(value)`: clamp a (possibly fractional) number into `[1, 6]`,
flooring first, exactly as `Math.max(MIN, Math.min(MAX, Math.floor(value)))`. -/
def DetailLevel.of (x : ℚ) : DetailLevel :=
  ⟨max DetailLevel.MIN (min DetailLevel.MAX ⌊x⌋)⟩

/-- `increment()`: saturate at `MAX`, returning the receiver itself there. -/
def DetailLevel.increment (l : DetailLevel) : DetailLevel :=
  if l.value ≥ DetailLevel.MAX then l else ⟨l.value + 1⟩

/-- `decrement()`: saturate at `MIN`, returning the receiver itself there. -/
def DetailLevel.decrement (l : DetailLevel) : DetailLevel :=
  if l.value ≤ DetailLevel.MIN then l else ⟨l.value - 1⟩

/-- `equals(other)`: value comparison. -/
def DetailLevel.equals (l r : DetailLevel) : Bool :=
  l.value = r.value

/-- `DetailLevel.default()`: level 3. -/
def DetailLevel.default : DetailLevel := ⟨3⟩

/-! ## ExchangeHistory (src/application/services/exchange-history.ts) -/

/-- The bounded FIFO buffer of exchanges.  `exchanges` is the backing array,
oldest first; `maxSize` is the fixed capacity. -/
structure ExchangeHistory where
  exchanges : List HttpExchange
  maxSize : Nat
deriving DecidableEq, Repr

/-- A freshly constructed history with the given capacity (source default 100). -/
def ExchangeHistory.empty (maxSize : Nat) : ExchangeHistory :=
  ⟨[], maxSize⟩

/-- `add(exchange)`: if at (or beyond) capacity, `shift()` the oldest entry,
then `push` the new one at the end.  Listener notification has no effect on
the buffer itself. -/
def ExchangeHistory.add (h : ExchangeHistory) (e : HttpExchange) : ExchangeHistory :=
  let exs := if h.exchanges.length ≥ h.maxSize then h.exchanges.tail else h.exchanges
  ⟨exs ++ [e], h.maxSize⟩

/-- `getAll()`: the full ordered sequence, oldest first. -/
def ExchangeHistory.getAll (h : ExchangeHistory) : List HttpExchange :=
  h.exchanges

/-- `getByIndex(index)`: array indexing; out-of-range (including negative)
yields `undefined`, embedded as `none`. -/
def ExchangeHistory.getByIndex (h : ExchangeHistory) (index : Int) : Option HttpExchange :=
  if index < 0 then none else h.exchanges.get? index.toNat

/-- `size()`. -/
def ExchangeHistory.size (h : ExchangeHistory) : Nat :=
  h.exchanges.length

/-- `capacity()`. -/
def ExchangeHistory.capacity (h : ExchangeHistory) : Nat :=
  h.maxSize

/-- A sequence of `add` calls, first element added first. -/
def ExchangeHistory.addAll (h : ExchangeHistory) (es : List HttpExchange) : ExchangeHistory :=
  es.foldl ExchangeHistory.add h

/-! ## Style-aware truncation (src/application/services/tui-layout.ts)

The JavaScript code first strips ANSI sequences with the regular expression
`\x1b\[[0-9;]*m` to count visible characters, and on overflow walks the raw
string, copying escape sequences through while counting only visible
characters.  Both passes are embedded below with an explicit fuel argument
equal to the string length, so that they are structurally recursive and
reduce inside `decide`; fuel-irrelevance lemmas recover the intended
equations. -/

/-- Consume `[0-9;]*` then a terminating `m`; `some rest` is the text after
the matched sequence, `none` means the regex does not match here. -/
def sgrParams : List Char → Option (List Char)
  | [] => none
  | c :: rest =>
    if c = 'm' then some rest
    else if c.isDigit ∨ c = ';' then sgrParams rest
    else none

/-- Try to match `\[[0-9;]*m` (the part of the SGR regex after the ESC). -/
def sgrMatch : List Char → Option (List Char)
  | [] => none
  | c :: rest => if c = '[' then sgrParams rest else none

/-- Fueled worker for `stripAnsi`; fuel at least the text length suffices. -/
def stripAnsiGo : Nat → List Char → List Char
  | 0, _ => []
  | _ + 1, [] => []
  | fuel + 1, c :: rest =>
    if c = escChar then
      match sgrMatch rest with
      | some rem => stripAnsiGo fuel rem
      | none => c :: stripAnsiGo fuel rest
    else c :: stripAnsiGo fuel rest

/-- `text.replace(/\x1b\[[0-9;]*m/g, "")`: global removal of SGR escape
sequences, scanning left to right exactly like the regex engine. -/
def stripAnsi (t : List Char) : List Char :=
  stripAnsiGo t.length t

/-- The scan `while (j < text.length && text[j] !== "m") j++` of
`truncateToWidth`, returning the scanned part (with the final `m` when
found) and the remainder. -/
def scanToM : List Char → List Char × List Char
  | [] => ([], [])
  | c :: rest =>
    if c = 'm' then ([c], rest)
    else
      let s := scanToM rest
      (c :: s.1, s.2)

/-- Fueled worker for the copy loop of `truncateToWidth`: copy characters
until `b` visible characters have been emitted, passing escape sequences
through without counting them. -/
def truncLoopGo : Nat → List Char → Nat → List Char
  | 0, _, _ => []
  | _ + 1, _, 0 => []
  | _ + 1, [], _ + 1 => []
  | _ + 1, [c], _ + 1 => [c]
  | fuel + 1, c1 :: c2 :: rest, b + 1 =>
    if c1 = escChar ∧ c2 = '[' then
      let s := scanToM rest
      c1 :: c2 :: (s.1 ++ truncLoopGo fuel s.2 (b + 1))
    else c1 :: truncLoopGo fuel (c2 :: rest) b

/-- The copy loop of `truncateToWidth` with visible budget `b`. -/
def truncLoop (t : List Char) (b : Nat) : List Char :=
  truncLoopGo t.length t b

/-- The three-character ellipsis appended on truncation. -/
def ellipsisChars : List Char := ['.', '.', '.']

/-- `truncateToWidth(text, maxWidth)` of the current `TuiLayout`: return the
text unchanged when its stripped length fits, otherwise copy up to
`maxWidth - 3` visible characters (escapes passing through) and append the
ellipsis plus a style reset. -/
def truncateToWidth (text : List Char) (maxWidth : Nat) : List Char :=
  if (stripAnsi text).length ≤ maxWidth then text
  else truncLoop text (maxWidth - 3) ++ ellipsisChars ++ ansiReset

/-- Texts whose escape sequences are all well-formed SGR sequences
`ESC [ params m` with parameter characters from `[0-9;]`. -/
inductive WellStyled : List Char → Prop where
  | nil : WellStyled []
  | vis (c : Char) (t : List Char) : c ≠ escChar → WellStyled t → WellStyled (c :: t)
  | sgr (ps t : List Char) : (∀ c ∈ ps, c.isDigit ∨ c = ';') → WellStyled t →
      WellStyled (escChar :: '[' :: (ps ++ 'm' :: t))

/-! ## TuiLayout geometry and footer (src/application/services/tui-layout.ts) -/

/-- The fixed screen regions computed from a terminal size. -/
structure LayoutRegions where
  headerRow : Int
  viewportStartRow : Int
  viewportEndRow : Int
  viewportHeight : Int
  footerRow : Int
  width : Int
deriving DecidableEq, Repr

/-- `calculateRegions(size)`: header row 1, footer row `rows`, viewport rows
`[2, rows - 1]`, height floored at 1. -/
def calculateRegions (rows cols : Int) : LayoutRegions :=
  { headerRow := 1
    viewportStartRow := 2
    viewportEndRow := rows - 1
    viewportHeight := max 1 ((rows - 1) - 2 + 1)
    footerRow := rows
    width := cols }

/-- `writeViewportLine(viewportRow, text)`: `none` embeds the `false` return
(no write) when the target row lies past the last viewport row; otherwise the
absolute row written to, paired with the text after width truncation. -/
def writeViewportLine (rows cols viewportRow : Int) (text : List Char) :
    Option (Int × List Char) :=
  let regions := calculateRegions rows cols
  let absoluteRow := regions.viewportStartRow + viewportRow
  if regions.viewportEndRow < absoluteRow then none
  else some (absoluteRow, truncateToWidth text regions.width.toNat)

/-! ## ScreenRenderer selection state
(src/application/services/screen-renderer.ts) -/

/-- `SelectionMode`: `"none" | "active"`. -/
inductive SelectionMode where
  | none
  | active
deriving DecidableEq, Repr

/-- The `SelectionState` record returned by `getSelectionState()`:
`selectedItem` is the 1-indexed display value. -/
structure SelectionState where
  mode : SelectionMode
  selectedItem : Option Nat
  totalItems : Nat
deriving DecidableEq, Repr

/-- The mutable state of a `ScreenRenderer` together with its history
collaborator (terminal, layout and addresses do not influence the checked
state transitions). -/
structure RendererState where
  currentLevel : DetailLevel
  history : ExchangeHistory
  selectionMode : SelectionMode
  selectedIndex : Option Nat
deriving DecidableEq, Repr

/-- Decimal digits of a natural number, as written by `String(n)`. -/
def natChars (n : Nat) : List Char := (Nat.repr n).toList

/-- The `[position/total]` indicator built by `renderFooter` when the
selection state is active with a non-null item. -/
def selectionIndicator (sel : Option SelectionState) : List Char :=
  match sel with
  | some ⟨SelectionMode.active, some n, total⟩ =>
      ansiBold ++ ('[' :: natChars n) ++ ('/' :: natChars total) ++ (']' :: ansiReset) ++ [' ']
  | _ => []

/-- The contextual hint: `"ESC exit • ↑↓ select • "` while a selection is
active, `"↑↓ select • "` otherwise. -/
def modeHint (sel : Option SelectionState) : List Char :=
  match sel with
  | some st =>
      if st.mode = SelectionMode.active then "ESC exit • ↑↓ select • ".toList
      else "↑↓ select • ".toList
  | none => "↑↓ select • ".toList

/-- The full footer `controls` string assembled by `renderFooter`. -/
def footerControls (exchangeCount historyCapacity : Nat) (storagePath : List Char)
    (sel : Option SelectionState) : List Char :=
  ansiDim ++ selectionIndicator sel ++ modeHint sel
    ++ "+/- level • q quit • ".toList
    ++ natChars exchangeCount ++ ('/' :: natChars historyCapacity)
    ++ " requests • ".toList ++ storagePath ++ ansiReset

/-- The string `renderFooter` actually writes: the assembled controls,
truncated by RAW length against `width - 1` via
`controls.substring(0, maxLen - 3) + "..."` when `controls.length > maxLen`. -/
def renderFooterText (width : Int) (exchangeCount historyCapacity : Nat)
    (storagePath : List Char) (sel : Option SelectionState) : List Char :=
  let controls := footerControls exchangeCount historyCapacity storagePath sel
  let maxLen := width - 1
  if maxLen < (controls.length : Int) then controls.take (maxLen - 3).toNat ++ ellipsisChars
  else controls

/-- `getSelectionState()`. -/
def getSelectionState (s : RendererState) : SelectionState :=
  ⟨s.selectionMode, s.selectedIndex.map (· + 1), s.history.size⟩

/-- `getSelectedIndex()`. -/
def getSelectedIndex (s : RendererState) : Option Nat :=
  s.selectedIndex

/-- `isSelectionActive()`. -/
def isSelectionActive (s : RendererState) : Bool :=
  s.selectionMode = SelectionMode.active

/-- `setLevel(level)`: on an actual level change, update the level and reset
the selection (then redraw); otherwise do nothing. -/
def setLevel (s : RendererState) (level : DetailLevel) : RendererState :=
  if ¬ (s.currentLevel.equals level) then
    { s with currentLevel := level, selectionMode := SelectionMode.none, selectedIndex := none }
  else s

/-- `selectUp()`. -/
def selectUp (s : RendererState) : RendererState :=
  if s.history.size = 0 then s
  else if s.selectionMode = SelectionMode.none then
    { s with selectionMode := SelectionMode.active, selectedIndex := some (s.history.size - 1) }
  else
    match s.selectedIndex with
    | some i => if 0 < i then { s with selectedIndex := some (i - 1) } else s
    | none => s

/-- `selectDown()`. -/
def selectDown (s : RendererState) : RendererState :=
  if s.history.size = 0 ∨ s.selectionMode = SelectionMode.none then s
  else
    match s.selectedIndex with
    | some i =>
        if i < s.history.size - 1 then { s with selectedIndex := some (i + 1) }
        else { s with selectionMode := SelectionMode.none, selectedIndex := none }
    | none => s

/-- `resetSelection()`. -/
def resetSelection (s : RendererState) : RendererState :=
  if s.selectionMode = SelectionMode.active then
    { s with selectionMode := SelectionMode.none, selectedIndex := none }
  else s

/-- `onNewExchange(exchange)`: only triggers a redraw; the selection state is
deliberately left untouched. -/
def onNewExchange (s : RendererState) (_e : HttpExchange) : RendererState :=
  s

/-- Arrival of a new exchange at the system boundary: `history.add(exchange)`
followed by `renderer.onNewExchange(exchange)` (src/cli/main.ts). -/
def systemNewExchange (s : RendererState) (e : HttpExchange) : RendererState :=
  onNewExchange { s with history := s.history.add e } e

/-- The events the renderer reacts to. -/
inductive RendererEvent where
  | newExchange (e : HttpExchange)
  | selUp
  | selDown
  | reset
  | level (l : DetailLevel)
  | levelUp
  | levelDown
deriving Repr

/-- One dispatched event. -/
def stepEvent (s : RendererState) : RendererEvent → RendererState
  | .newExchange e => systemNewExchange s e
  | .selUp => selectUp s
  | .selDown => selectDown s
  | .reset => resetSelection s
  | .level l => setLevel s l
  | .levelUp => setLevel s s.currentLevel.increment
  | .levelDown => setLevel s s.currentLevel.decrement

/-- The renderer state right after construction, over a fresh history. -/
def initState (cap : Nat) (l0 : DetailLevel) : RendererState :=
  ⟨l0, ExchangeHistory.empty cap, SelectionMode.none, none⟩

/-- Run a sequence of events. -/
def runEvents (s : RendererState) (evs : List RendererEvent) : RendererState :=
  evs.foldl stepEvent s

/-- The selection-state soundness invariant: an active selection carries a
valid index into the current history, and an inactive one carries no index. -/
def SelInv (s : RendererState) : Prop :=
  (s.selectionMode = SelectionMode.active →
    ∃ i, s.selectedIndex = some i ∧ i < s.history.size)
  ∧ (s.selectionMode = SelectionMode.none → s.selectedIndex = none)

/-- A renderer state is reachable when some event sequence from a freshly
initialized renderer produces it. -/
def Reachable (s : RendererState) : Prop :=
  ∃ cap l0 evs, s = runEvents (initState cap l0) evs

/-! ## Concrete exchanges and states used by witnesses and counterexamples -/

/-- A minimal exchange with a given id and a 200 response. -/
def mkEx (id : String) : HttpExchange :=
  ⟨id, 0, ⟨"GET", "/" ++ id, [], none⟩, some ⟨200, [], none⟩, none⟩

def exA : HttpExchange := mkEx "a"

def exB : HttpExchange := mkEx "b"

def exC : HttpExchange := mkEx "c"

/-- A renderer over a capacity-5 history holding one exchange, with an active
selection at index 0. -/
def levelResetState : RendererState :=
  runEvents (initState 5 DetailLevel.default)
    [RendererEvent.newExchange exA, RendererEvent.selUp]

/-- A renderer over a capacity-1 history already at capacity, with an active
selection at index 0. -/
def atCapacityState : RendererState :=
  runEvents (initState 1 DetailLevel.default)
    [RendererEvent.newExchange exA, RendererEvent.selUp]

/-! Basic facts about the history buffer. -/

theorem ExchangeHistory.add_maxSize (h : ExchangeHistory) (e : HttpExchange) :
    (h.add e).maxSize = h.maxSize := rfl

theorem ExchangeHistory.addAll_maxSize (h : ExchangeHistory) (es : List HttpExchange) :
    (h.addAll es).maxSize = h.maxSize := by
  induction es generalizing h with
  | nil => rfl
  | cons e es ih => simpa [ExchangeHistory.addAll, List.foldl_cons] using ih (h.add e)

/-- One `add` keeps the buffer within a positive capacity. -/
theorem ExchangeHistory.add_length_le (h : ExchangeHistory) (e : HttpExchange)
    (hcap : 1 ≤ h.maxSize) (hlen : h.exchanges.length ≤ h.maxSize) :
    (h.add e).exchanges.length ≤ h.maxSize := by
  by_cases hge : h.exchanges.length ≥ h.maxSize
  · have hne : h.exchanges ≠ [] := by
      intro hnil
      rw [hnil] at hge
      simp at hge
      omega
    have ht : h.exchanges.tail.length = h.exchanges.length - 1 := List.length_tail _
    simp only [ExchangeHistory.add, hge, if_pos, List.length_append, List.length_cons,
      List.length_nil, ht]
    omega
  · simp only [ExchangeHistory.add, if_neg hge, List.length_append, List.length_cons,
      List.length_nil]
    omega

/-- Any run of `add`s keeps the buffer within a positive capacity. -/
theorem ExchangeHistory.addAll_length_le (es : List HttpExchange) :
    ∀ h : ExchangeHistory, 1 ≤ h.maxSize → h.exchanges.length ≤ h.maxSize →
      (h.addAll es).exchanges.length ≤ h.maxSize := by
  induction es with
  | nil => intro h _ hlen; simpa [ExchangeHistory.addAll] using hlen
  | cons e es ih =>
    intro h hcap hlen
    have haddall : (h.addAll (e :: es)) = ((h.add e).addAll es) := by
      simp [ExchangeHistory.addAll, List.foldl_cons]
    rw [haddall]
    exact ih (h.add e) hcap (h.add_length_le e hcap hlen)

theorem ExchangeHistory.addAll_append_single (h : ExchangeHistory)
    (es : List HttpExchange) (e : HttpExchange) :
    h.addAll (es ++ [e]) = (h.addAll es).add e := by
  simp [ExchangeHistory.addAll, List.foldl_append]

/-- Starting from an empty history with positive capacity, a run of `add`s
leaves exactly the most recent `maxSize` items, oldest first. -/
theorem ExchangeHistory.addAll_empty_exchanges (cap : Nat) (hcap : 1 ≤ cap)
    (es : List HttpExchange) :
    ((ExchangeHistory.empty cap).addAll es).exchanges = es.drop (es.length - cap) := by
  induction es using List.reverseRecOn with
  | nil => simp [ExchangeHistory.addAll, ExchangeHistory.empty]
  | append_singleton es e ih =>
    rw [ExchangeHistory.addAll_append_single, ExchangeHistory.add, ih]
    have hmax : ((ExchangeHistory.empty cap).addAll es).maxSize = cap :=
      ExchangeHistory.addAll_maxSize _ _
    rw [hmax]
    by_cases hge : (es.drop (es.length - cap)).length ≥ cap
    · have hlen : (es.drop (es.length - cap)).length = cap := by
        have hle : (es.drop (es.length - cap)).length ≤ cap := by
          simp only [List.length_drop]
          omega
        omega
      have hcapes : cap ≤ es.length := by
        by_contra hc
        push_neg at hc
        simp only [List.length_drop] at hlen
        omega
      simp only [if_pos hge, List.tail_drop]
      have h1 : (es ++ [e]).drop ((es ++ [e]).length - cap)
          = es.drop (es.length + 1 - cap) ++ [e] := by
        rw [List.length_append, List.length_cons, List.length_nil]
        exact List.drop_append_of_le_length (by omega)
      rw [h1, show es.length - cap + 1 = es.length + 1 - cap from by omega]
    · push_neg at hge
      rw [List.length_drop] at hge
      have hlt : es.length < cap := by omega
      have h0 : es.length - cap = 0 := Nat.sub_eq_zero_of_le (le_of_lt hlt)
      have h0' : (es ++ [e]).length - cap = 0 := by
        simp only [List.length_append, List.length_cons, List.length_nil]
        omega
      simp only [h0, List.drop_zero]
      rw [if_neg (by omega : ¬ es.length ≥ cap), h0', List.drop_zero]

/-! ## Facts about the style-stripping and truncation passes -/

theorem sgrParams_length_lt (l : List Char) :
    ∀ rem, sgrParams l = some rem → rem.length < l.length := by
  induction l with
  | nil => intro rem h; simp [sgrParams] at h
  | cons c rest ih =>
    intro rem h
    simp only [sgrParams] at h
    split_ifs at h with h1 h2
    · cases h; simp
    · exact Nat.lt_succ_of_lt (ih rem h)

theorem sgrMatch_length_lt (l : List Char) :
    ∀ rem, sgrMatch l = some rem → rem.length < l.length := by
  cases l with
  | nil => intro rem h; simp [sgrMatch] at h
  | cons c rest =>
    intro rem h
    simp only [sgrMatch] at h
    split_ifs at h with h1
    · exact Nat.lt_succ_of_lt (sgrParams_length_lt rest rem h)

theorem stripAnsiGo_nil (f : Nat) : stripAnsiGo f [] = [] := by
  cases f <;> rfl

theorem stripAnsiGo_congr (f1 : Nat) :
    ∀ f2 t, List.length t ≤ f1 → List.length t ≤ f2 → stripAnsiGo f1 t = stripAnsiGo f2 t := by
  induction f1 with
  | zero =>
    intro f2 t h1 _
    have : t = [] := List.eq_nil_of_length_eq_zero (Nat.le_zero.mp h1)
    subst this
    rw [stripAnsiGo_nil, stripAnsiGo_nil]
  | succ f1 ih =>
    intro f2 t h1 h2
    cases t with
    | nil => rw [stripAnsiGo_nil, stripAnsiGo_nil]
    | cons c rest =>
      cases f2 with
      | zero => simp at h2
      | succ g2 =>
        simp only [List.length_cons, Nat.succ_le_succ_iff] at h1 h2
        simp only [stripAnsiGo]
        by_cases hc : c = escChar
        · rw [if_pos hc, if_pos hc]
          cases hm : sgrMatch rest with
          | none => rw [ih g2 rest h1 h2]
          | some rem =>
            have hlt := sgrMatch_length_lt rest rem hm
            exact ih g2 rem (by omega) (by omega)
        · rw [if_neg hc, if_neg hc, ih g2 rest h1 h2]

theorem stripAnsi_cons_vis (c : Char) (t : List Char) (hc : c ≠ escChar) :
    stripAnsi (c :: t) = c :: stripAnsi t := by
  show stripAnsiGo (t.length + 1) (c :: t) = c :: stripAnsi t
  simp only [stripAnsiGo, if_neg hc]
  rfl

theorem stripAnsi_of_not_mem (t : List Char) (h : escChar ∉ t) : stripAnsi t = t := by
  induction t with
  | nil => rfl
  | cons c rest ih =>
    have hc : c ≠ escChar := fun hcc => h (hcc ▸ List.mem_cons_self c rest)
    have hrest : escChar ∉ rest := fun hm => h (List.mem_cons_of_mem c hm)
    rw [stripAnsi_cons_vis c rest hc, ih hrest]

theorem sgrParam_ne_m (c : Char) (h : c.isDigit ∨ c = ';') : c ≠ 'm' := by
  rintro rfl
  rcases h with h | h
  · simp [Char.isDigit] at h
  · simp at h

theorem sgrParams_append (ps t : List Char) (hps : ∀ c ∈ ps, c.isDigit ∨ c = ';') :
    sgrParams (ps ++ 'm' :: t) = some t := by
  induction ps with
  | nil => simp [sgrParams]
  | cons c ps ih =>
    have hc := hps c (List.mem_cons_self c ps)
    have hne := sgrParam_ne_m c hc
    simp only [List.cons_append, sgrParams, if_neg hne, if_pos hc]
    exact ih fun d hd => hps d (List.mem_cons_of_mem c hd)

theorem stripAnsi_sgr (ps t : List Char) (hps : ∀ c ∈ ps, c.isDigit ∨ c = ';') :
    stripAnsi (escChar :: '[' :: (ps ++ 'm' :: t)) = stripAnsi t := by
  show stripAnsiGo ((ps ++ 'm' :: t).length + 1 + 1) (escChar :: '[' :: (ps ++ 'm' :: t))
      = stripAnsi t
  simp only [stripAnsiGo, if_pos rfl, sgrMatch, sgrParams_append ps t hps]
  have hlen : t.length ≤ (ps ++ 'm' :: t).length + 1 := by simp; omega
  exact stripAnsiGo_congr _ t.length t hlen le_rfl

theorem stripAnsi_append_wellStyled (p : List Char) (hp : WellStyled p) :
    ∀ q, stripAnsi (p ++ q) = stripAnsi p ++ stripAnsi q := by
  induction hp with
  | nil => intro q; simp [stripAnsi, stripAnsiGo_nil]
  | vis c t hc _ ih =>
    intro q
    rw [List.cons_append, stripAnsi_cons_vis c (t ++ q) hc, stripAnsi_cons_vis c t hc, ih q,
      List.cons_append]
  | sgr ps t hps _ ih =>
    intro q
    have hassoc : (escChar :: '[' :: (ps ++ 'm' :: t)) ++ q
        = escChar :: '[' :: (ps ++ 'm' :: (t ++ q)) := by simp
    rw [hassoc, stripAnsi_sgr ps (t ++ q) hps, stripAnsi_sgr ps t hps, ih q]

theorem scanToM_params (ps t : List Char) (hps : ∀ c ∈ ps, c.isDigit ∨ c = ';') :
    scanToM (ps ++ 'm' :: t) = (ps ++ ['m'], t) := by
  induction ps with
  | nil => simp [scanToM]
  | cons c ps ih =>
    have hne := sgrParam_ne_m c (hps c (List.mem_cons_self c ps))
    have ihh := ih fun d hd => hps d (List.mem_cons_of_mem c hd)
    simp [List.cons_append, scanToM, if_neg hne, ihh]

theorem scanToM_snd_length (l : List Char) : (scanToM l).2.length ≤ l.length := by
  induction l with
  | nil => simp [scanToM]
  | cons c rest ih =>
    simp only [scanToM]
    split_ifs with h
    · simp
    · simpa using Nat.le_succ_of_le ih

theorem truncLoopGo_nil (f b : Nat) : truncLoopGo f [] b = [] := by
  cases f with
  | zero => rfl
  | succ f => cases b <;> rfl

theorem truncLoopGo_zero_budget (f : Nat) (t : List Char) : truncLoopGo f t 0 = [] := by
  cases f with
  | zero => rfl
  | succ f => cases t with
    | nil => rfl
    | cons c rest => cases rest <;> rfl

theorem truncLoopGo_congr (f1 : Nat) :
    ∀ f2 t b, List.length t ≤ f1 → List.length t ≤ f2 →
      truncLoopGo f1 t b = truncLoopGo f2 t b := by
  induction f1 with
  | zero =>
    intro f2 t b h1 _
    have : t = [] := List.eq_nil_of_length_eq_zero (Nat.le_zero.mp h1)
    subst this
    rw [truncLoopGo_nil, truncLoopGo_nil]
  | succ f1 ih =>
    intro f2 t b h1 h2
    cases b with
    | zero => rw [truncLoopGo_zero_budget, truncLoopGo_zero_budget]
    | succ b =>
      cases t with
      | nil => rw [truncLoopGo_nil, truncLoopGo_nil]
      | cons c1 rest1 =>
        cases f2 with
        | zero => simp at h2
        | succ g2 =>
          cases rest1 with
          | nil => rfl
          | cons c2 rest =>
            simp only [List.length_cons, Nat.succ_le_succ_iff] at h1 h2
            simp only [truncLoopGo]
            by_cases hc : c1 = escChar ∧ c2 = '['
            · rw [if_pos hc, if_pos hc]
              have hsnd := scanToM_snd_length rest
              rw [ih g2 (scanToM rest).2 (b + 1) (by omega) (by omega)]
            · rw [if_neg hc, if_neg hc,
                ih g2 (c2 :: rest) b (by simp; omega) (by simp; omega)]

theorem truncLoop_zero (t : List Char) : truncLoop t 0 = [] :=
  truncLoopGo_zero_budget _ t

theorem truncLoop_single (c : Char) (b : Nat) : truncLoop [c] (b + 1) = [c] := rfl

theorem truncLoop_cons_vis (c c2 : Char) (rest : List Char) (b : Nat) (hc : c ≠ escChar) :
    truncLoop (c :: c2 :: rest) (b + 1) = c :: truncLoop (c2 :: rest) b := by
  show truncLoopGo (rest.length + 1 + 1) (c :: c2 :: rest) (b + 1) = _
  rw [truncLoopGo, if_neg (fun h : c = escChar ∧ c2 = '[' => hc h.1)]
  rfl

theorem truncLoop_sgr (ps t : List Char) (b : Nat)
    (hps : ∀ c ∈ ps, c.isDigit ∨ c = ';') :
    truncLoop (escChar :: '[' :: (ps ++ 'm' :: t)) (b + 1)
      = escChar :: '[' :: ((ps ++ ['m']) ++ truncLoop t (b + 1)) := by
  show truncLoopGo ((ps ++ 'm' :: t).length + 1 + 1)
      (escChar :: '[' :: (ps ++ 'm' :: t)) (b + 1) = _
  rw [truncLoopGo, if_pos (⟨rfl, rfl⟩ : escChar = escChar ∧ '[' = '[')]
  rw [scanToM_params ps t hps]
  have hfl : t.length ≤ (ps ++ 'm' :: t).length + 1 := by simp; omega
  have hcg := truncLoopGo_congr ((ps ++ 'm' :: t).length + 1) t.length t (b + 1) hfl le_rfl
  show escChar :: '[' :: ((ps ++ ['m'], t).1
      ++ truncLoopGo ((ps ++ 'm' :: t).length + 1) (ps ++ ['m'], t).2 (b + 1)) = _
  rw [show ((ps ++ ['m'], t) : List Char × List Char).1 = ps ++ ['m'] from rfl,
    show ((ps ++ ['m'], t) : List Char × List Char).2 = t from rfl, hcg]
  rfl

theorem wellStyled_of_not_mem (t : List Char) (h : escChar ∉ t) : WellStyled t := by
  induction t with
  | nil => exact WellStyled.nil
  | cons c rest ih =>
    exact WellStyled.vis c rest (fun hcc => h (hcc ▸ List.mem_cons_self c rest))
      (ih fun hm => h (List.mem_cons_of_mem c hm))

/-- The copy loop, on a well-styled text and a budget within the stripped
length, emits exactly a well-styled prefix of the text holding exactly the
budgeted number of visible characters. -/
theorem truncLoop_wellStyled (t : List Char) (hws : WellStyled t) :
    ∀ b, b ≤ (stripAnsi t).length →
      ∃ p r, t = p ++ r ∧ truncLoop t b = p ∧ WellStyled p ∧ (stripAnsi p).length = b := by
  induction hws with
  | nil =>
    intro b hb
    have hb0 : b = 0 := Nat.le_zero.mp (by simpa [stripAnsi, stripAnsiGo] using hb)
    subst hb0
    exact ⟨[], [], rfl, truncLoop_zero _, WellStyled.nil, rfl⟩
  | vis c t hc hwst ih =>
    intro b hb
    cases b with
    | zero => exact ⟨[], c :: t, rfl, truncLoop_zero _, WellStyled.nil, rfl⟩
    | succ b =>
      rw [stripAnsi_cons_vis c t hc] at hb
      simp only [List.length_cons, Nat.succ_le_succ_iff] at hb
      cases t with
      | nil =>
        have hb0 : b = 0 := Nat.le_zero.mp (by simpa [stripAnsi, stripAnsiGo] using hb)
        subst hb0
        refine ⟨[c], [], by simp, truncLoop_single c 0,
          WellStyled.vis c [] hc WellStyled.nil, ?_⟩
        rw [stripAnsi_cons_vis c [] hc]
        rfl
      | cons c2 rest =>
        obtain ⟨p, r, hpr, htr, hwp, hsp⟩ := ih b hb
        refine ⟨c :: p, r, by rw [hpr, List.cons_append],
          by rw [truncLoop_cons_vis c c2 rest b hc, htr],
          WellStyled.vis c p hc hwp, ?_⟩
        rw [stripAnsi_cons_vis c p hc]
        simp [hsp]
  | sgr ps t hps hwst ih =>
    intro b hb
    cases b with
    | zero => exact ⟨[], _, rfl, truncLoop_zero _, WellStyled.nil, rfl⟩
    | succ b =>
      rw [stripAnsi_sgr ps t hps] at hb
      obtain ⟨p, r, hpr, htr, hwp, hsp⟩ := ih (b + 1) hb
      refine ⟨escChar :: '[' :: (ps ++ 'm' :: p), r, ?_, ?_,
        WellStyled.sgr ps p hps hwp, ?_⟩
      · rw [hpr]
        simp
      · rw [truncLoop_sgr ps t b hps, htr]
        simp
      · rw [stripAnsi_sgr ps p hps, hsp]

/-! ## Claim C4 — style-aware truncation -/

/-- C4 (counterexample): at width 0 and the escape-free text "abcd", the
stripped length (4) exceeds the width, yet the result's stripped length is 3
(the bare ellipsis), not 0 as the claim demands for every width. -/
theorem truncateToWidth_small_width_cex :
    0 < (stripAnsi "abcd".toList).length
    ∧ (stripAnsi (truncateToWidth "abcd".toList 0)).length = 3
    ∧ (stripAnsi (truncateToWidth "abcd".toList 0)).length ≠ 0 := by decide

/-- C4 (amended: widths ≥ 3, escape sequences read as well-formed SGR
sequences): an escape-free text of length ≤ w is returned unchanged; any text
whose stripped length is ≤ w is returned unchanged, escapes included; and on
overflow the stripped length of the result is exactly w, the result is a
prefix of the text followed by the 3-character ellipsis and the style reset,
so every escape sequence before the cut point is copied through unchanged. -/
theorem truncateToWidth_spec (t : List Char) (w : Nat) (hw : 3 ≤ w) :
    (escChar ∉ t → t.length ≤ w → truncateToWidth t w = t)
    ∧ ((stripAnsi t).length ≤ w → truncateToWidth t w = t)
    ∧ (WellStyled t → w < (stripAnsi t).length →
        (stripAnsi (truncateToWidth t w)).length = w
        ∧ ∃ p r, t = p ++ r ∧ truncateToWidth t w = p ++ ellipsisChars ++ ansiReset
            ∧ (stripAnsi p).length = w - 3) := by
  refine ⟨?_, ?_, ?_⟩
  · intro hesc hlen
    have hst := stripAnsi_of_not_mem t hesc
    unfold truncateToWidth
    rw [if_pos (by rw [hst]; exact hlen)]
  · intro h
    unfold truncateToWidth
    rw [if_pos h]
  · intro hws hlt
    have hnot : ¬ (stripAnsi t).length ≤ w := by omega
    have hb : w - 3 ≤ (stripAnsi t).length := by omega
    obtain ⟨p, r, hpr, htr, hwp, hsp⟩ := truncLoop_wellStyled t hws (w - 3) hb
    have hres : truncateToWidth t w = p ++ ellipsisChars ++ ansiReset := by
      unfold truncateToWidth
      rw [if_neg hnot, htr]
    refine ⟨?_, p, r, hpr, hres, hsp⟩
    rw [hres, List.append_assoc, stripAnsi_append_wellStyled p hwp (ellipsisChars ++ ansiReset),
      show stripAnsi (ellipsisChars ++ ansiReset) = ellipsisChars from by decide]
    simp only [List.length_append, hsp, ellipsisChars, List.length_cons, List.length_nil]
    omega

/-- C4 (witness): a styled ten-character text truncated to width 5 has
stripped length exactly 5 and the expected shape. -/
theorem truncateToWidth_spec_witness :
    (3 ≤ 5 ∧ escChar ∉ "abcdefgh".toList ∧ 5 < (stripAnsi "abcdefgh".toList).length)
    ∧ (stripAnsi (truncateToWidth "abcdefgh".toList 5)).length = 5 :=
  ⟨⟨by decide, by decide, by decide⟩,
    ((truncateToWidth_spec "abcdefgh".toList 5 (by decide)).2.2
      (wellStyled_of_not_mem _ (by decide)) (by decide)).1⟩

/-! ## Claim C5 — footer truncation uses raw length -/

/-- C5 (code evaluated at the failing input): with terminal width 52, count 0,
capacity 9, storage path "/s" and no selection, the footer's stripped length
(50) fits within width − 1 = 51, yet `renderFooter` truncates anyway because
the raw length (58, escape bytes included) exceeds 51 — contradicting the
claim that truncation happens only on visible overflow. -/
theorem renderFooter_truncates_on_raw_length :
    ((stripAnsi (footerControls 0 9 "/s".toList none)).length : Int) ≤ 52 - 1
    ∧ (52 - 1 : Int) < ((footerControls 0 9 "/s".toList none).length : Int)
    ∧ renderFooterText 52 0 9 "/s".toList none ≠ footerControls 0 9 "/s".toList none
    ∧ renderFooterText 52 0 9 "/s".toList none
        = (footerControls 0 9 "/s".toList none).take 48 ++ ellipsisChars := by decide

/-! ## Claim C9 — one-sided viewport bounds check -/

/-- C9 (counterexample): on a degenerate 1-row terminal even the negative
relative row −1 is rejected (the header row 1 already lies past the last
viewport row 0), so "for every negative relativeRow the call does not return
failure" does not hold universally. -/
theorem writeViewportLine_single_row_cex :
    writeViewportLine 1 80 (-1) "x".toList = none := by decide

/-- C9 (amended: terminals with at least 2 rows): for every negative relative
row the call succeeds and writes at `viewportStartRow + relativeRow`, which is
the header row or above; and in general a write is rejected exactly when the
target row lies past the last viewport row. -/
theorem writeViewportLine_one_sided_bounds (rows cols r : Int) (text : List Char)
    (hrows : 2 ≤ rows) (hneg : r < 0) :
    (∃ out, writeViewportLine rows cols r text = some out ∧ out.1 = 2 + r)
    ∧ 2 + r ≤ (calculateRegions rows cols).headerRow
    ∧ (∀ q : Int, writeViewportLine rows cols q text = none ↔ rows - 1 < 2 + q) := by
  refine ⟨?_, ?_, ?_⟩
  · refine ⟨(2 + r, truncateToWidth text cols.toNat), ?_, rfl⟩
    unfold writeViewportLine calculateRegions
    rw [if_neg (by dsimp only; omega)]
  · unfold calculateRegions
    dsimp only
    omega
  · intro q
    unfold writeViewportLine calculateRegions
    dsimp only
    constructor
    · intro h
      by_contra hc
      rw [if_neg hc] at h
      exact Option.noConfusion h
    · intro h
      rw [if_pos h]

/-- C9 (witness): on a 24×80 terminal, relative row −1 succeeds and targets
the header row. -/
theorem writeViewportLine_one_sided_bounds_witness :
    ((2:Int) ≤ 24 ∧ (-1:Int) < 0)
    ∧ (∃ out, writeViewportLine 24 80 (-1) "hi".toList = some out ∧ out.1 = 2 + (-1)) :=
  ⟨⟨by decide, by decide⟩,
    (writeViewportLine_one_sided_bounds 24 80 (-1) "hi".toList (by decide) (by decide)).1⟩

/-! ## Facts about the selection state machine -/

theorem ExchangeHistory.size_le_size_add (h : ExchangeHistory) (e : HttpExchange) :
    h.size ≤ (h.add e).size := by
  show h.exchanges.length
      ≤ ((if h.exchanges.length ≥ h.maxSize then h.exchanges.tail else h.exchanges)
          ++ [e]).length
  split_ifs with hge
  · simp only [List.length_append, List.length_tail, List.length_cons, List.length_nil]
    omega
  · simp only [List.length_append, List.length_cons, List.length_nil]
    omega

theorem selInv_init (cap : Nat) (l0 : DetailLevel) : SelInv (initState cap l0) :=
  ⟨fun hc => by simp [initState] at hc, fun _ => rfl⟩

theorem selInv_step (s : RendererState) (ev : RendererEvent) (h : SelInv s) :
    SelInv (stepEvent s ev) := by
  obtain ⟨hact, hnone⟩ := h
  cases ev with
  | newExchange e =>
    refine ⟨fun hm => ?_, fun hm => ?_⟩
    · simp only [stepEvent, systemNewExchange, onNewExchange] at hm ⊢
      obtain ⟨i, hi, hlt⟩ := hact hm
      exact ⟨i, hi, lt_of_lt_of_le hlt (ExchangeHistory.size_le_size_add _ _)⟩
    · simp only [stepEvent, systemNewExchange, onNewExchange] at hm ⊢
      exact hnone hm
  | selUp =>
    by_cases h0 : s.history.size = 0
    · simp only [stepEvent, selectUp, if_pos h0]
      exact ⟨hact, hnone⟩
    · by_cases hm : s.selectionMode = SelectionMode.none
      · simp only [stepEvent, selectUp, if_neg h0, if_pos hm]
        exact ⟨fun _ => ⟨s.history.size - 1, rfl, by dsimp only; omega⟩,
          fun hc => by simp at hc⟩
      · have hma : s.selectionMode = SelectionMode.active := by
          cases hsm : s.selectionMode
          · exact absurd hsm hm
          · rfl
        obtain ⟨i, hi, hlt⟩ := hact hma
        simp only [stepEvent, selectUp, if_neg h0, if_neg hm, hi]
        by_cases hz : 0 < i
        · simp only [if_pos hz]
          exact ⟨fun _ => ⟨i - 1, rfl, by dsimp only; omega⟩,
            fun hc => by simp [hma] at hc⟩
        · simp only [if_neg hz]
          exact ⟨hact, hnone⟩
  | selDown =>
    by_cases hcond : s.history.size = 0 ∨ s.selectionMode = SelectionMode.none
    · simp only [stepEvent, selectDown, if_pos hcond]
      exact ⟨hact, hnone⟩
    · push_neg at hcond
      obtain ⟨h0, hm⟩ := hcond
      have hma : s.selectionMode = SelectionMode.active := by
        cases hsm : s.selectionMode
        · exact absurd hsm hm
        · rfl
      obtain ⟨i, hi, hlt⟩ := hact hma
      simp only [stepEvent, selectDown, if_neg (not_or.mpr ⟨h0, hm⟩), hi]
      by_cases hl : i < s.history.size - 1
      · simp only [if_pos hl]
        exact ⟨fun _ => ⟨i + 1, rfl, by dsimp only; omega⟩,
          fun hc => by simp [hma] at hc⟩
      · simp only [if_neg hl]
        exact ⟨fun hc => by simp at hc, fun _ => rfl⟩
  | reset =>
    by_cases hm : s.selectionMode = SelectionMode.active
    · simp only [stepEvent, resetSelection, if_pos hm]
      exact ⟨fun hc => by simp at hc, fun _ => rfl⟩
    · simp only [stepEvent, resetSelection, if_neg hm]
      exact ⟨hact, hnone⟩
  | level l =>
    simp only [stepEvent, setLevel]
    split_ifs with hif <;>
      first
        | exact ⟨hact, hnone⟩
        | exact ⟨fun hc => by simp at hc, fun _ => rfl⟩
  | levelUp =>
    simp only [stepEvent, setLevel]
    split_ifs with hif <;>
      first
        | exact ⟨hact, hnone⟩
        | exact ⟨fun hc => by simp at hc, fun _ => rfl⟩
  | levelDown =>
    simp only [stepEvent, setLevel]
    split_ifs with hif <;>
      first
        | exact ⟨hact, hnone⟩
        | exact ⟨fun hc => by simp at hc, fun _ => rfl⟩

theorem selInv_runEvents (evs : List RendererEvent) :
    ∀ s, SelInv s → SelInv (runEvents s evs) := by
  induction evs with
  | nil => intro s h; exact h
  | cons ev evs ih => intro s h; exact ih (stepEvent s ev) (selInv_step s ev h)

theorem reachable_selInv (s : RendererState) (hs : Reachable s) : SelInv s := by
  obtain ⟨cap, l0, evs, rfl⟩ := hs
  exact selInv_runEvents evs _ (selInv_init cap l0)

theorem selectUp_enter (s : RendererState) (hm : s.selectionMode = SelectionMode.none)
    (hn : ¬ s.history.size = 0) :
    selectUp s = { s with
      selectionMode := SelectionMode.active
      selectedIndex := some (s.history.size - 1) } := by
  simp only [selectUp, if_neg hn, if_pos hm]

theorem selectUp_active_step (s : RendererState) (i : Nat)
    (hm : s.selectionMode = SelectionMode.active) (hi : s.selectedIndex = some i)
    (hn : ¬ s.history.size = 0) :
    selectUp s = { s with selectedIndex := some (i - 1) } := by
  have hmn : ¬ s.selectionMode = SelectionMode.none := by simp [hm]
  simp only [selectUp, if_neg hn, if_neg hmn, hi]
  by_cases hz : 0 < i
  · rw [if_pos hz]
  · rw [if_neg hz]
    have hz0 : i = 0 := by omega
    subst hz0
    cases s with
    | mk lv hist sm si =>
      simp only at hi
      simp [hi]

theorem selectUp_iterate (k : Nat) :
    ∀ (s : RendererState) (i : Nat), s.selectionMode = SelectionMode.active →
      s.selectedIndex = some i → ¬ s.history.size = 0 →
      (selectUp^[k] s).selectionMode = SelectionMode.active
      ∧ (selectUp^[k] s).selectedIndex = some (i - k)
      ∧ (selectUp^[k] s).history = s.history := by
  induction k with
  | zero =>
    intro s i hm hi _
    refine ⟨?_, ?_, ?_⟩ <;> simp [Function.iterate_zero_apply, hm, hi]
  | succ k ih =>
    intro s i hm hi hn
    rw [Function.iterate_succ_apply, selectUp_active_step s i hm hi hn]
    obtain ⟨a, b, c⟩ := ih { s with selectedIndex := some (i - 1) } (i - 1)
      (by simpa using hm) rfl (by simpa using hn)
    refine ⟨a, ?_, c⟩
    rw [b, show i - 1 - k = i - (k + 1) from by omega]

theorem selectDown_none_fix (s : RendererState)
    (hm : s.selectionMode = SelectionMode.none) : selectDown s = s := by
  simp only [selectDown, if_pos (Or.inr hm)]

theorem selectDown_iterate_none (k : Nat) :
    ∀ s : RendererState, s.selectionMode = SelectionMode.none →
      selectDown^[k] s = s := by
  induction k with
  | zero => intro s _; rfl
  | succ k ih =>
    intro s hm
    rw [Function.iterate_succ_apply, selectDown_none_fix s hm]
    exact ih s hm

theorem selectDown_terminates (m : Nat) :
    ∀ (s : RendererState) (i : Nat), s.selectionMode = SelectionMode.active →
      s.selectedIndex = some i → i < s.history.size → s.history.size ≤ i + m →
      (selectDown^[m] s).selectionMode = SelectionMode.none
      ∧ (selectDown^[m] s).selectedIndex = none := by
  induction m with
  | zero =>
    intro s i _ _ hlt hle
    exact absurd hle (by omega)
  | succ m ih =>
    intro s i hm hi hlt hle
    rw [Function.iterate_succ_apply]
    have hcond : ¬ (s.history.size = 0 ∨ s.selectionMode = SelectionMode.none) := by
      rintro (hc | hc)
      · omega
      · rw [hm] at hc
        exact SelectionMode.noConfusion hc
    by_cases hl : i < s.history.size - 1
    · have hstep : selectDown s = { s with selectedIndex := some (i + 1) } := by
        simp only [selectDown, if_neg hcond, hi, if_pos hl]
      rw [hstep]
      exact ih { s with selectedIndex := some (i + 1) } (i + 1) (by simpa using hm) rfl
        (by simpa using (by omega : i + 1 < s.history.size)) (by simp; omega)
    · have hstep : selectDown s
          = { s with selectionMode := SelectionMode.none, selectedIndex := none } := by
        simp only [selectDown, if_neg hcond, hi, if_neg hl]
      rw [hstep, selectDown_iterate_none m _ rfl]
      exact ⟨rfl, rfl⟩

/-! ## Claim C1 — selection across level changes -/

/-- C1 (code evaluated at the failing input): from a reachable state with an
active selection at index 0 and level 3, `setLevel` with level 4 changes the
level but also resets the selection to `none` with an absent index, against
the documented intent that selection persists across level changes. -/
theorem setLevel_resets_selection :
    levelResetState.selectionMode = SelectionMode.active
    ∧ getSelectedIndex levelResetState = some 0
    ∧ levelResetState.currentLevel.equals ⟨4⟩ = false
    ∧ (setLevel levelResetState ⟨4⟩).currentLevel = ⟨4⟩
    ∧ (setLevel levelResetState ⟨4⟩).selectionMode = SelectionMode.none
    ∧ getSelectedIndex (setLevel levelResetState ⟨4⟩) = none := by decide

/-! ## Claim C2 — eviction invariant -/

/-- C2: from an empty history of positive capacity N, after any M > N
additions the size is exactly N, `getAll` is exactly the last N added
exchanges oldest first, and after every prefix of the additions the buffer
length is at most N. -/
theorem exchangeHistory_eviction (cap : Nat) (es : List HttpExchange)
    (hcap : 0 < cap) (hM : cap < es.length) :
    ((ExchangeHistory.empty cap).addAll es).size = cap
    ∧ ((ExchangeHistory.empty cap).addAll es).getAll = es.drop (es.length - cap)
    ∧ ∀ p q : List HttpExchange, es = p ++ q →
        ((ExchangeHistory.empty cap).addAll p).size ≤ cap := by
  have hgetAll := ExchangeHistory.addAll_empty_exchanges cap hcap es
  refine ⟨?_, hgetAll, ?_⟩
  · show ((ExchangeHistory.empty cap).addAll es).exchanges.length = cap
    rw [hgetAll, List.length_drop]
    omega
  · intro p q _
    exact ExchangeHistory.addAll_length_le p _ hcap (by simp [ExchangeHistory.empty])

/-- C2 (witness): capacity 2, exchanges a, b, c — size ends at 2 and
`getAll` is `[b, c]`. -/
theorem exchangeHistory_eviction_witness :
    (0 < 2 ∧ 2 < ([exA, exB, exC] : List HttpExchange).length)
    ∧ ((ExchangeHistory.empty 2).addAll [exA, exB, exC]).size = 2
    ∧ ((ExchangeHistory.empty 2).addAll [exA, exB, exC]).getAll = [exB, exC] :=
  ⟨⟨by decide, by decide⟩,
    (exchangeHistory_eviction 2 [exA, exB, exC] (by decide) (by decide)).1,
    by decide⟩

/-! ## Claim C3 — selection stability under new exchanges -/

/-- C3 (counterexample): over a history already at capacity (capacity 1,
holding exchange "a", selection at index 0), adding exchange "b" and calling
`onNewExchange` leaves the index at 0 — but index 0 now refers to "b", a
different exchange by identifier, because eviction shifted every item. -/
theorem onNewExchange_at_capacity_cex :
    atCapacityState.selectionMode = SelectionMode.active
    ∧ atCapacityState.selectedIndex = some 0
    ∧ atCapacityState.history.size = atCapacityState.history.capacity
    ∧ atCapacityState.history.getByIndex 0 = some exA
    ∧ (systemNewExchange atCapacityState exB).selectedIndex = some 0
    ∧ (systemNewExchange atCapacityState exB).history.getByIndex 0 = some exB
    ∧ exA.id ≠ exB.id := by decide

/-- C3 (amended: histories strictly below capacity, so no eviction): after
`history.add(e)` followed by `onNewExchange(e)` the selection index is
unchanged and `getByIndex` at that index returns the same exchange as before
the add. -/
theorem onNewExchange_preserves_selection (s : RendererState) (e : HttpExchange) (i : Nat)
    (hm : s.selectionMode = SelectionMode.active) (hi : s.selectedIndex = some i)
    (hlt : i < s.history.size) (hcap : s.history.size < s.history.capacity) :
    (systemNewExchange s e).selectionMode = SelectionMode.active
    ∧ (systemNewExchange s e).selectedIndex = some i
    ∧ (systemNewExchange s e).history.getByIndex (i : Int)
        = s.history.getByIndex (i : Int)
    ∧ ∃ ex, s.history.getByIndex (i : Int) = some ex := by
  have hnotge : ¬ (s.history.exchanges.length ≥ s.history.maxSize) := by
    show ¬ (s.history.size ≥ s.history.capacity)
    omega
  have hadd : (s.history.add e).exchanges = s.history.exchanges ++ [e] := by
    simp only [ExchangeHistory.add, if_neg hnotge]
  have hilt : (i : Int).toNat < s.history.exchanges.length := by
    simpa [Int.toNat_natCast] using hlt
  refine ⟨by simpa [systemNewExchange, onNewExchange] using hm,
    by simpa [systemNewExchange, onNewExchange] using hi, ?_, ?_⟩
  · show (s.history.add e).getByIndex (i : Int) = s.history.getByIndex (i : Int)
    unfold ExchangeHistory.getByIndex
    rw [if_neg (by omega : ¬ (i : Int) < 0), if_neg (by omega : ¬ (i : Int) < 0), hadd]
    exact List.get?_append hilt
  · unfold ExchangeHistory.getByIndex
    rw [if_neg (by omega : ¬ (i : Int) < 0)]
    exact ⟨_, List.get?_eq_get hilt⟩

/-- C3 (witness): capacity 2, one exchange, selection at index 0; a second
exchange arrives and index 0 still refers to exchange "a". -/
theorem onNewExchange_preserves_selection_witness :
    ((runEvents (initState 2 DetailLevel.default)
        [RendererEvent.newExchange exA, RendererEvent.selUp]).selectionMode
          = SelectionMode.active
      ∧ (runEvents (initState 2 DetailLevel.default)
          [RendererEvent.newExchange exA, RendererEvent.selUp]).selectedIndex = some 0)
    ∧ (systemNewExchange (runEvents (initState 2 DetailLevel.default)
        [RendererEvent.newExchange exA, RendererEvent.selUp]) exB).history.getByIndex 0
        = (runEvents (initState 2 DetailLevel.default)
            [RendererEvent.newExchange exA, RendererEvent.selUp]).history.getByIndex 0 :=
  ⟨⟨by decide, by decide⟩,
    (onNewExchange_preserves_selection
      (runEvents (initState 2 DetailLevel.default)
        [RendererEvent.newExchange exA, RendererEvent.selUp]) exB 0
      (by decide) (by decide) (by decide) (by decide)).2.2.1⟩

/-! ## Claim C6 — selection bounds invariant -/

/-- C6: in every reachable renderer state an active selection index is a
valid history index; from an inactive selection over a non-empty history of N
items, N+1 or more `selectUp` presses end at index 0 (indices are naturals,
so never negative); and from any active selection, `size`-many or more
`selectDown` presses end in mode `none` with an absent index. -/
theorem screenRenderer_selection_bounds (s : RendererState) (hs : Reachable s) :
    (s.selectionMode = SelectionMode.active →
      ∃ i, s.selectedIndex = some i ∧ i < s.history.size)
    ∧ (s.selectionMode = SelectionMode.none → ¬ s.history.size = 0 →
        ∀ k, s.history.size + 1 ≤ k →
          (selectUp^[k] s).selectedIndex = some 0
          ∧ (selectUp^[k] s).selectionMode = SelectionMode.active)
    ∧ (s.selectionMode = SelectionMode.active →
        ∀ k, s.history.size ≤ k →
          (selectDown^[k] s).selectionMode = SelectionMode.none
          ∧ (selectDown^[k] s).selectedIndex = none) := by
  have inv := reachable_selInv s hs
  refine ⟨inv.1, ?_, ?_⟩
  · intro hmode hsize k hk
    obtain ⟨j, rfl⟩ : ∃ j, k = j + 1 := ⟨k - 1, by omega⟩
    rw [Function.iterate_succ_apply, selectUp_enter s hmode hsize]
    obtain ⟨ha, hb, hc⟩ := selectUp_iterate j
      { s with
        selectionMode := SelectionMode.active
        selectedIndex := some (s.history.size - 1) }
      (s.history.size - 1) rfl rfl (by simpa using hsize)
    refine ⟨?_, ha⟩
    rw [hb, show s.history.size - 1 - j = 0 from by omega]
  · intro hmode k hk
    obtain ⟨i, hi, hlt⟩ := inv.1 hmode
    exact selectDown_terminates k s i hmode hi hlt (by omega)

/-- C6 (witness): two exchanges, one `selectUp`, then two `selectDown`
presses leave the selection inactive. -/
theorem screenRenderer_selection_bounds_witness :
    ((runEvents (initState 3 DetailLevel.default)
        [RendererEvent.newExchange exA, RendererEvent.newExchange exB,
          RendererEvent.selUp]).selectionMode = SelectionMode.active
      ∧ (runEvents (initState 3 DetailLevel.default)
          [RendererEvent.newExchange exA, RendererEvent.newExchange exB,
            RendererEvent.selUp]).history.size = 2)
    ∧ (selectDown^[2] (runEvents (initState 3 DetailLevel.default)
        [RendererEvent.newExchange exA, RendererEvent.newExchange exB,
          RendererEvent.selUp])).selectionMode = SelectionMode.none :=
  ⟨⟨by decide, by decide⟩,
    ((screenRenderer_selection_bounds
      (runEvents (initState 3 DetailLevel.default)
        [RendererEvent.newExchange exA, RendererEvent.newExchange exB,
          RendererEvent.selUp])
      ⟨3, DetailLevel.default, _, rfl⟩).2.2 (by decide) 2 (by decide)).1⟩

/-! ## Claim C7 — status categorization buckets -/

/-- C7: the category the formatter derives equals the fixed bucketing of the
response status code — 1xx informational, 2xx success, 3xx redirect, 4xx
client error, 500 and above server error, anything below 100 server error,
absent response unreachable — and the six categories map to pairwise distinct
styling tokens. -/
theorem categorizeStatus_buckets (e : HttpExchange) :
    (e.response = none → formatCategory e = HttpStatusCategory.unreachable)
    ∧ (∀ r : HttpResponse, e.response = some r →
        ((100 ≤ r.statusCode ∧ r.statusCode ≤ 199) →
          formatCategory e = HttpStatusCategory.informational)
        ∧ ((200 ≤ r.statusCode ∧ r.statusCode ≤ 299) →
          formatCategory e = HttpStatusCategory.success)
        ∧ ((300 ≤ r.statusCode ∧ r.statusCode ≤ 399) →
          formatCategory e = HttpStatusCategory.redirect)
        ∧ ((400 ≤ r.statusCode ∧ r.statusCode ≤ 499) →
          formatCategory e = HttpStatusCategory.clientError)
        ∧ (500 ≤ r.statusCode → formatCategory e = HttpStatusCategory.serverError)
        ∧ (r.statusCode < 100 → formatCategory e = HttpStatusCategory.serverError))
    ∧ List.Pairwise (fun a b => a ≠ b)
        (([HttpStatusCategory.unreachable, HttpStatusCategory.informational,
          HttpStatusCategory.success, HttpStatusCategory.redirect,
          HttpStatusCategory.clientError,
          HttpStatusCategory.serverError]).map getColorForCategory) := by
  refine ⟨?_, ?_, by decide⟩
  · intro h
    simp [formatCategory, h, categorizeStatus]
  · intro r hr
    refine ⟨?_, ?_, ?_, ?_, ?_, ?_⟩ <;> intro h <;>
      · simp only [formatCategory, hr, Option.map_some', categorizeStatus]
        split_ifs <;> first | rfl | (exfalso; omega)

/-- C7 (witness): a 200 response is categorized as success. -/
theorem categorizeStatus_buckets_witness :
    (exA.response = some ⟨200, [], none⟩
      ∧ 200 ≤ (⟨200, [], none⟩ : HttpResponse).statusCode
      ∧ (⟨200, [], none⟩ : HttpResponse).statusCode ≤ 299)
    ∧ formatCategory exA = HttpStatusCategory.success :=
  ⟨⟨rfl, by decide, by decide⟩,
    ((categorizeStatus_buckets exA).2.1 ⟨200, [], none⟩ rfl).2.1 ⟨by decide, by decide⟩⟩

/-! ## Claim C8 — detail level clamping and saturation -/

/-- C8: `DetailLevel.of` clamps below 1 to 1 and above 6 to 6, floors inside
the range, and always yields an integer value in [1, 6]; `increment` at 6 and
`decrement` at 1 return the receiver itself, and otherwise the value moves by
exactly ±1. -/
theorem detailLevel_clamp_saturate (x : ℚ) :
    (x < 1 → DetailLevel.of x = ⟨1⟩)
    ∧ (6 < x → DetailLevel.of x = ⟨6⟩)
    ∧ (1 ≤ x → x ≤ 6 → (DetailLevel.of x).value = ⌊x⌋)
    ∧ (1 ≤ (DetailLevel.of x).value ∧ (DetailLevel.of x).value ≤ 6)
    ∧ (∀ l : DetailLevel, l.value = 6 → l.increment = l)
    ∧ (∀ l : DetailLevel, l.value = 1 → l.decrement = l)
    ∧ (∀ l : DetailLevel, 1 ≤ l.value → l.value < 6 → (l.increment).value = l.value + 1)
    ∧ (∀ l : DetailLevel, 1 < l.value → l.value ≤ 6 → (l.decrement).value = l.value - 1) := by
  have hfloor_le : (⌊x⌋ : ℚ) ≤ x := Int.floor_le x
  refine ⟨?_, ?_, ?_, ?_, ?_, ?_, ?_, ?_⟩
  · intro h
    have h1 : ⌊x⌋ < 1 := by
      rw [Int.floor_lt]
      exact_mod_cast h
    unfold DetailLevel.of DetailLevel.MIN DetailLevel.MAX
    congr 1
    rw [max_def, min_def]
    split_ifs <;> omega
  · intro h
    have h6 : 6 ≤ ⌊x⌋ := by
      rw [Int.le_floor]
      exact_mod_cast le_of_lt h
    unfold DetailLevel.of DetailLevel.MIN DetailLevel.MAX
    congr 1
    rw [max_def, min_def]
    split_ifs <;> omega
  · intro h1 h6
    have ha : 1 ≤ ⌊x⌋ := by
      rw [Int.le_floor]
      exact_mod_cast h1
    have hb : ⌊x⌋ ≤ 6 := by
      have hc : (⌊x⌋ : ℚ) ≤ 6 := le_trans hfloor_le h6
      exact_mod_cast hc
    show max DetailLevel.MIN (min DetailLevel.MAX ⌊x⌋) = ⌊x⌋
    unfold DetailLevel.MIN DetailLevel.MAX
    rw [max_def, min_def]
    split_ifs <;> omega
  · constructor <;>
      · show _
        unfold DetailLevel.of DetailLevel.MIN DetailLevel.MAX
        dsimp only
        rw [max_def, min_def]
        split_ifs <;> omega
  · intro l h
    unfold DetailLevel.increment
    rw [if_pos (by rw [h]; exact le_refl _)]
  · intro l h
    unfold DetailLevel.decrement
    rw [if_pos (by rw [h]; exact le_refl _)]
  · intro l h1 h6
    unfold DetailLevel.increment DetailLevel.MAX
    rw [if_neg (by omega)]
  · intro l h1 h6
    unfold DetailLevel.decrement DetailLevel.MIN
    rw [if_neg (by omega)]

/-- C8 (witness): `of(5/2)` floors to 2 inside the range, and incrementing
level 6 returns it unchanged. -/
theorem detailLevel_clamp_saturate_witness :
    ((1 : ℚ) ≤ 5 / 2 ∧ (5 / 2 : ℚ) ≤ 6 ∧ ⌊(5 / 2 : ℚ)⌋ = 2)
    ∧ (DetailLevel.of (5 / 2)).value = ⌊(5 / 2 : ℚ)⌋
    ∧ (DetailLevel.mk 6).increment = DetailLevel.mk 6 :=
  ⟨⟨by norm_num, by norm_num, by norm_num [Int.floor_eq_iff]⟩,
    (detailLevel_clamp_saturate (5 / 2)).2.2.1 (by norm_num) (by norm_num),
    (detailLevel_clamp_saturate (5 / 2)).2.2.2.2.1 (DetailLevel.mk 6) rfl⟩

/-! ## Claim C10 — 1-based selection display -/

/-- C10: in every reachable renderer state, `getSelectionState` reports
`totalItems = history.size()` and `selectedItem = getSelectedIndex() + 1`
when a selection is active (`null` otherwise), so the footer's
`[position/total]` indicator is 1-based: index 0 (the oldest item) displays
as position 1 and the newest as position `totalItems`. -/
theorem getSelectionState_one_based (s : RendererState) (hs : Reachable s) :
    (getSelectionState s).totalItems = s.history.size
    ∧ (s.selectionMode = SelectionMode.active →
        ∃ i, getSelectedIndex s = some i
          ∧ (getSelectionState s).selectedItem = some (i + 1)
          ∧ selectionIndicator (some (getSelectionState s))
              = ansiBold ++ ('[' :: natChars (i + 1)) ++ ('/' :: natChars s.history.size)
                ++ (']' :: ansiReset) ++ [' '])
    ∧ (¬ s.selectionMode = SelectionMode.active →
        (getSelectionState s).selectedItem = none) := by
  have inv := reachable_selInv s hs
  refine ⟨rfl, ?_, ?_⟩
  · intro hm
    obtain ⟨i, hi, _⟩ := inv.1 hm
    have hstate : getSelectionState s
        = ⟨SelectionMode.active, some (i + 1), s.history.size⟩ := by
      simp [getSelectionState, hm, hi]
    exact ⟨i, hi, by rw [hstate], by rw [hstate]; rfl⟩
  · intro hm
    have hnone : s.selectionMode = SelectionMode.none := by
      cases hsm : s.selectionMode
      · rfl
      · exact absurd hsm hm
    have hidx := inv.2 hnone
    simp [getSelectionState, hidx]

/-- C10 (witness): with two exchanges and the newest selected (index 1), the
reported selected item is 2 of 2. -/
theorem getSelectionState_one_based_witness :
    (runEvents (initState 3 DetailLevel.default)
      [RendererEvent.newExchange exA, RendererEvent.newExchange exB,
        RendererEvent.selUp]).selectionMode = SelectionMode.active
    ∧ ∃ i, getSelectedIndex (runEvents (initState 3 DetailLevel.default)
        [RendererEvent.newExchange exA, RendererEvent.newExchange exB,
          RendererEvent.selUp]) = some i
      ∧ (getSelectionState (runEvents (initState 3 DetailLevel.default)
          [RendererEvent.newExchange exA, RendererEvent.newExchange exB,
            RendererEvent.selUp])).selectedItem = some (i + 1) :=
  ⟨by decide,
    match (getSelectionState_one_based
      (runEvents (initState 3 DetailLevel.default)
        [RendererEvent.newExchange exA, RendererEvent.newExchange exB,
          RendererEvent.selUp])
      ⟨3, DetailLevel.default, _, rfl⟩).2.1 (by decide) with
    | ⟨i, h1, h2, _⟩ => ⟨i, h1, h2⟩⟩
